import Mathlib

/-!
Extendible hashing (`src/src/hash/extendible_hash_final.cpp`).

A shallow embedding of the extendible hash table of
`src/src/hash/extendible_hash_final.cpp` (class `cmudb::ExtendibleHash<K, V>`).

Modelling conventions, each noted again at the definition it concerns:

* `std::shared_ptr<Bucket>` aliasing is modelled by a pool of buckets
  (`pool : List (Bucket K V)`) and directory slots holding pool indices;
  the C++ pointer comparison `bucket_directory[i] == curr` becomes index
  equality.  A slot holding `none` models a null `shared_ptr`.
* `std::hash<K>` is an arbitrary function `hash : K → Nat`; the bit-mask
  `HashKey(key) & ((1 << globalDepth) - 1)` is `hash key % 2 ^ globalDepth`,
  and the test `HashKey(k) & mask_bit` (with `mask_bit = 1 << d`) is
  "bit `d` of `hash k` is set", i.e. `hash k / 2 ^ d % 2 = 1`.
* `std::map<K, V>` is an association list; `find` / `operator[]=` / `erase` /
  `size` are `mapFind?` / `mapInsert` / `mapErase` / `List.length`.  The
  source names this member inconsistently (`pairs` in `Find`/`Remove`,
  `pages` in `Insert`, `contents` in the header); the embedding uses the
  single field `pairs` throughout.
* The `while (true)` loop of `Insert` is given explicit fuel; `none` means
  the loop has not terminated within the given fuel.
* Reading `std::vector` out of range with `operator[]` is undefined
  behaviour in C++, not an error that is raised; where a claim is about
  that distinction the result type carries an explicit `undefined` outcome.
* The mutex acquisitions (`big_latch`, per-bucket `latch`) have no effect on
  the sequential semantics and are not modelled.
-/

/-- `class Bucket` of the source: a local depth and the key/value map.
The C++ field `int localDepth` is a non-negative counter (it starts at 0 and
is only incremented), so it is modelled as a `Nat`. -/
structure Bucket (K V : Type) where
  localDepth : Nat
  pairs : List (K × V)
deriving DecidableEq

/-- The state of `class ExtendibleHash<K, V>`: the allocated buckets
(`pool`, modelling the heap cells behind the `shared_ptr`s), the directory
of bucket references (`std::vector<std::shared_ptr<Bucket>> bucket_directory`,
a slot being `none` for a null pointer and `some b` for a pointer to
`pool[b]`), and the counters `numBuckets`, `bucketsize`, `globalDepth`. -/
structure ExtendibleHash (K V : Type) where
  pool : List (Bucket K V)
  bucket_directory : List (Option Nat)
  numBuckets : Nat
  bucketsize : Nat
  globalDepth : Nat
deriving DecidableEq

/-- `std::map::find` (guarded read): the value bound to `k`, if any. -/
def mapFind? {K V : Type} [DecidableEq K] (m : List (K × V)) (k : K) : Option V :=
  match m with
  | [] => none
  | (k1, v1) :: rest => if k1 = k then some v1 else mapFind? rest k

/-- `std::map::operator[] = v`: update the binding of `k` if present,
otherwise add one. -/
def mapInsert {K V : Type} [DecidableEq K] (m : List (K × V)) (k : K) (v : V) :
    List (K × V) :=
  match m with
  | [] => [(k, v)]
  | (k1, v1) :: rest =>
      if k1 = k then (k1, v) :: rest else (k1, v1) :: mapInsert rest k v

/-- `std::map::erase(k)`: drop the binding of `k` (a `std::map` holds at most
one binding per key, so dropping every binding of `k` is the same thing). -/
def mapErase {K V : Type} [DecidableEq K] (m : List (K × V)) (k : K) : List (K × V) :=
  m.filter fun p => p.1 ≠ k

/-- Bit `d` of `n`: the C++ test `n & mask_bit` (with `mask_bit = 1 << d`)
is nonzero exactly when this holds. -/
def bitSet (n d : Nat) : Bool := n / 2 ^ d % 2 = 1

namespace ExtendibleHash

variable {K V : Type} [DecidableEq K]

/-- The constructor `ExtendibleHash(size_t size)` (lines 12–17): one fresh
bucket, directory of one slot pointing at it, `numBuckets = 1`,
`globalDepth = 0`.  Line 15's `std::make_shared<Bucket>` passes no depth;
the initial bucket's local depth is 0 (the header's `Bucket(int depth)`
with the only depth consistent with `globalDepth = 0`). -/
def init (K V : Type) (size : Nat) : ExtendibleHash K V :=
  { pool := [⟨0, []⟩]
    bucket_directory := [some 0]
    numBuckets := 1
    bucketsize := size
    globalDepth := 0 }

/-- `GetGlobalDepth` (lines 30–34). -/
def GetGlobalDepth (s : ExtendibleHash K V) : Nat := s.globalDepth

/-- `GetNumBuckets` (lines 48–52): returns the maintained counter. -/
def GetNumBuckets (s : ExtendibleHash K V) : Nat := s.numBuckets

/-- Outcome of `GetLocalDepth`: a value, a raised out-of-range error, or
undefined behaviour.  The constructor `outOfRangeError` exists to state what
the spec asserts (a propagated error); no code path of the source produces
it, since `std::vector::operator[]` performs no bounds check. -/
inductive DepthResult where
  | ok (d : Nat)
  | outOfRangeError
  | undefined
deriving DecidableEq

/-- `GetLocalDepth(int bucket_id)` (lines 39–43):
`bucket_directory[bucket_id]->localDepth` with no bounds check.  An index
outside `[0, directory size)` is an out-of-range `std::vector::operator[]`,
i.e. undefined behaviour (`undefined`), and dereferencing a null slot
likewise; no error is raised on any path. -/
def GetLocalDepth (s : ExtendibleHash K V) (bucket_id : Int) : DepthResult :=
  if 0 ≤ bucket_id ∧ bucket_id.toNat < s.bucket_directory.length then
    match s.bucket_directory[bucket_id.toNat]? with
    | some (some b) =>
        match s.pool[b]? with
        | some bk => .ok bk.localDepth
        | none => .undefined
    | _ => .undefined
  else .undefined

variable (hash : K → Nat)

/-- `HashKey(key) & ((1 << globalDepth) - 1)` (lines 60, 77, 101): the low
`globalDepth` bits of the hash, i.e. the hash modulo `2 ^ globalDepth`. -/
def dirIndex (g : Nat) (key : K) : Nat := hash key % 2 ^ g

/-- `Find` (lines 57–70): route by the masked hash, return the value stored
under `key` in that bucket; `none` when the slot is null or the key absent. -/
def Find (s : ExtendibleHash K V) (key : K) : Option V :=
  match s.bucket_directory[dirIndex hash s.globalDepth key]? with
  | some (some b) =>
      match s.pool[b]? with
      | some bk => mapFind? bk.pairs key
      | none => none
  | _ => none

/-- `Remove` (lines 75–91): route by the masked hash; if the bucket holds the
key, erase it and return `true`, else return `false`.  Line 82 writes the
unqualified `pairs.erase(key)`; the class has no other member `pairs`, so the
erase acts on the routed bucket (`container -> pairs`). -/
def Remove (s : ExtendibleHash K V) (key : K) : Bool × ExtendibleHash K V :=
  match s.bucket_directory[dirIndex hash s.globalDepth key]? with
  | some (some b) =>
      match s.pool[b]? with
      | some bk =>
          if (mapFind? bk.pairs key).isSome then
            (true, { s with pool := s.pool.set b ⟨bk.localDepth, mapErase bk.pairs key⟩ })
          else (false, s)
      | none => (false, s)
  | _ => (false, s)

/-- The directory-pointer update of `Insert` (lines 131–135): every slot `i`
that referenced `curr` and has bit `d` set is redirected to `newIdx`.  `i`
is the running slot index (the recursion walks the list from position `i`). -/
def updateSlots (curr newIdx d : Nat) : Nat → List (Option Nat) → List (Option Nat)
  | _, [] => []
  | i, slot :: rest =>
      (if slot = some curr ∧ bitSet i d then some newIdx else slot) ::
        updateSlots curr newIdx d (i + 1) rest

/-- One split of bucket `curr` (the loop body of `Insert`, lines 109–135,
when the bucket is full): remember `mask_bit = 1 << localDepth`, increment
the local depth, double the directory when the new local depth exceeds the
global depth (incrementing the global depth), count one more bucket,
allocate the sibling holding the entries whose hash has bit `d` set (the
others stay), and redirect the slots of `curr` with bit `d` set to it. -/
def splitStep (s : ExtendibleHash K V) (curr : Nat) (bk : Bucket K V) :
    ExtendibleHash K V :=
  { pool := s.pool.set curr
        ⟨bk.localDepth + 1, bk.pairs.filter fun q => ¬ bitSet (hash q.1) bk.localDepth⟩
      ++ [⟨bk.localDepth + 1, bk.pairs.filter fun q => bitSet (hash q.1) bk.localDepth⟩]
    bucket_directory := updateSlots curr s.pool.length bk.localDepth 0
      (if bk.localDepth + 1 > s.globalDepth then s.bucket_directory ++ s.bucket_directory
       else s.bucket_directory)
    numBuckets := s.numBuckets + 1
    bucketsize := s.bucketsize
    globalDepth := if bk.localDepth + 1 > s.globalDepth then s.globalDepth + 1
      else s.globalDepth }

/-- The `while (true)` loop of `Insert` (lines 104–136), with explicit fuel
(`none` = the loop has not terminated within `fuel` iterations).  `curr` is
the bucket captured at line 103 and — as in the source — is *not* recomputed
inside the loop: every iteration re-reads the same pool cell.  When the key
is already present or the bucket has room, store the pair and stop;
otherwise split and iterate. -/
def insertLoop (key : K) (value : V) (curr : Nat) :
    Nat → ExtendibleHash K V → Option (ExtendibleHash K V)
  | 0, _ => none
  | fuel + 1, s =>
      match s.pool[curr]? with
      | none => none
      | some bk =>
          if (mapFind? bk.pairs key).isSome ∨ bk.pairs.length < s.bucketsize then
            some { s with pool := s.pool.set curr ⟨bk.localDepth, mapInsert bk.pairs key value⟩ }
          else
            insertLoop key value curr fuel (splitStep hash s curr bk)

/-- `Insert` (lines 98–142): route by the masked hash; on a null slot return
without inserting (line 141); otherwise run the loop on the captured bucket.
Lines 138–139 recompute `id` and `curr` after the loop, but nothing reads
them afterwards (the function returns), so they have no effect.  An
out-of-range directory read would be undefined behaviour; it cannot occur
(the routed index is below `2 ^ globalDepth`, the directory length), and the
embedding returns the state unchanged on that dead branch. -/
def Insert (fuel : Nat) (s : ExtendibleHash K V) (key : K) (value : V) :
    Option (ExtendibleHash K V) :=
  match s.bucket_directory[dirIndex hash s.globalDepth key]? with
  | some (some curr) => insertLoop hash key value curr fuel s
  | some none => some s
  | none => some s

/-- The pool indices the directory references (the buckets reachable from
the directory, null slots skipped). -/
def refs (s : ExtendibleHash K V) : List Nat := s.bucket_directory.filterMap id

/-- The number of distinct buckets the directory references: aliased slots
deduplicated, as the spec describes `GetNumBuckets`. -/
def distinctBuckets (s : ExtendibleHash K V) : Nat := (refs s).toFinset.card

/-- The states reachable from a freshly constructed table by completed
operations: construction, a completed `Insert` (one whose loop terminated),
and `Remove`.  `Find` does not change the state (it returns a value and
leaves every field as it was), so it adds no constructor. -/
inductive Reachable : ExtendibleHash K V → Prop where
  | init (size : Nat) : Reachable (init K V size)
  | insert {s s' : ExtendibleHash K V} (key : K) (value : V) (fuel : Nat) :
      Reachable s → Insert hash fuel s key value = some s' → Reachable s'
  | remove {s : ExtendibleHash K V} (key : K) :
      Reachable s → Reachable (Remove hash s key).2

/-- One completed operation, state to state: a completed `Insert`, a
`Remove`, or a `Find` (which leaves the state unchanged). -/
inductive Step : ExtendibleHash K V → ExtendibleHash K V → Prop where
  | insert {s s' : ExtendibleHash K V} (key : K) (value : V) (fuel : Nat) :
      Insert hash fuel s key value = some s' → Step s s'
  | remove {s : ExtendibleHash K V} (key : K) : Step s (Remove hash s key).2
  | find {s : ExtendibleHash K V} (key : K) : Step s s

/-- A finite sequence of completed operations. -/
inductive Steps : ExtendibleHash K V → ExtendibleHash K V → Prop where
  | refl (s : ExtendibleHash K V) : Steps s s
  | tail {s t u : ExtendibleHash K V} : Steps s t → Step hash t u → Steps s u

end ExtendibleHash

/-! Basic lemmas about the association-list map operations. -/

theorem mapFind?_mapErase {K V : Type} [DecidableEq K] (m : List (K × V)) (k : K) :
    mapFind? (mapErase m k) k = none := by
  induction m with
  | nil => rfl
  | cons p rest ih =>
      rcases p with ⟨k1, v1⟩
      by_cases h : k1 = k
      · subst h
        simpa [mapErase, List.filter_cons] using ih
      · simpa [mapErase, List.filter_cons, h, mapFind?] using ih

theorem mapFind?_mapInsert {K V : Type} [DecidableEq K] (m : List (K × V)) (k : K) (v : V) :
    mapFind? (mapInsert m k v) k = some v := by
  induction m with
  | nil => simp [mapInsert, mapFind?]
  | cons p rest ih =>
      rcases p with ⟨k1, v1⟩
      by_cases h : k1 = k
      · subst h; simp [mapInsert, mapFind?]
      · simpa [mapInsert, mapFind?, h] using ih

/-! Arithmetic about the discriminating bit: `i % 2 ^ (d + 1)` splits the
residue class `i % 2 ^ d = p` by bit `d` of `i`. -/

theorem bitSet_eq_true_iff (n d : Nat) : bitSet n d = true ↔ n / 2 ^ d % 2 = 1 := by
  simp [bitSet]

theorem bitSet_eq_false_iff (n d : Nat) : bitSet n d = false ↔ n / 2 ^ d % 2 = 0 := by
  rcases Nat.mod_two_eq_zero_or_one (n / 2 ^ d) with h | h <;> simp [bitSet, h]

theorem mod_succ_of_bit_false {i d p : Nat} (h : i % 2 ^ d = p)
    (hb : bitSet i d = false) : i % 2 ^ (d + 1) = p := by
  have := Nat.mod_pow_succ (x := i) (b := 2) (k := d)
  rw [(bitSet_eq_false_iff i d).1 hb] at this
  simpa [h] using this

theorem mod_succ_of_bit_true {i d p : Nat} (h : i % 2 ^ d = p)
    (hb : bitSet i d = true) : i % 2 ^ (d + 1) = p + 2 ^ d := by
  have := Nat.mod_pow_succ (x := i) (b := 2) (k := d)
  rw [(bitSet_eq_true_iff i d).1 hb] at this
  simpa [h, Nat.add_comm] using this

theorem of_mod_succ_lo {i d p : Nat} (hp : p < 2 ^ d) (h : i % 2 ^ (d + 1) = p) :
    i % 2 ^ d = p ∧ bitSet i d = false := by
  have hs := Nat.mod_pow_succ (x := i) (b := 2) (k := d)
  rcases Nat.mod_two_eq_zero_or_one (i / 2 ^ d) with hb | hb
  · rw [hb] at hs
    simp only [Nat.mul_zero, Nat.add_zero] at hs
    exact ⟨by rw [← hs, h], (bitSet_eq_false_iff i d).2 hb⟩
  · rw [hb] at hs
    have hlt : i % 2 ^ d < 2 ^ d := Nat.mod_lt _ (Nat.pos_pow_of_pos d (by decide))
    omega

theorem of_mod_succ_hi {i d p : Nat} (_hp : p < 2 ^ d) (h : i % 2 ^ (d + 1) = p + 2 ^ d) :
    i % 2 ^ d = p ∧ bitSet i d = true := by
  have hs := Nat.mod_pow_succ (x := i) (b := 2) (k := d)
  have hlt : i % 2 ^ d < 2 ^ d := Nat.mod_lt _ (Nat.pos_pow_of_pos d (by decide))
  rcases Nat.mod_two_eq_zero_or_one (i / 2 ^ d) with hb | hb
  · rw [hb] at hs
    simp only [Nat.mul_zero, Nat.add_zero] at hs
    exfalso
    omega
  · rw [hb] at hs
    exact ⟨by omega, (bitSet_eq_true_iff i d).2 hb⟩

namespace ExtendibleHash

theorem updateSlots_length (c n d : Nat) : ∀ (i : Nat) (l : List (Option Nat)),
    (updateSlots c n d i l).length = l.length
  | _, [] => rfl
  | i, slot :: rest => by
      simp [updateSlots, updateSlots_length c n d (i + 1) rest]

theorem updateSlots_getElem? (c n d : Nat) (l : List (Option Nat)) : ∀ (i j : Nat),
    (updateSlots c n d i l)[j]? =
      (l[j]?).map fun slot => if slot = some c ∧ bitSet (i + j) d then some n else slot := by
  induction l with
  | nil => intro i j; rfl
  | cons slot rest ih =>
      intro i j
      cases j with
      | zero =>
          rw [updateSlots, List.getElem?_cons_zero, List.getElem?_cons_zero, Nat.add_zero]
          rfl
      | succ j =>
          rw [updateSlots, List.getElem?_cons_succ, List.getElem?_cons_succ, ih (i + 1) j]
          have harith : i + 1 + j = i + (j + 1) := by omega
          rw [harith]

theorem mem_refs_iff {K V : Type} (s : ExtendibleHash K V) (b : Nat) :
    b ∈ refs s ↔ ∃ i : Nat, s.bucket_directory[i]? = some (some b) := by
  constructor
  · intro h
    rcases List.mem_filterMap.1 h with ⟨slot, hmem, hid⟩
    cases slot with
    | none => cases hid
    | some b1 =>
        cases hid
        exact List.mem_iff_getElem?.1 hmem
  · intro ⟨i, hi⟩
    exact List.mem_filterMap.2 ⟨some b, List.mem_iff_getElem?.2 ⟨i, hi⟩, rfl⟩

end ExtendibleHash

theorem lt_of_getElem?_some {α : Type} {l : List α} {i : Nat} {a : α}
    (h : l[i]? = some a) : i < l.length := by
  obtain ⟨hlt, -⟩ := List.getElem?_eq_some_iff.1 h
  exact hlt

namespace ExtendibleHash

variable {K V : Type} [DecidableEq K]

/-- `key` is absent from the index: no bucket the directory references
holds a binding for it. -/
def keyAbsent (s : ExtendibleHash K V) (key : K) : Prop :=
  ∀ b ∈ refs s, ∀ bk : Bucket K V, s.pool[b]? = some bk → mapFind? bk.pairs key = none

/-- `Remove` leaves the directory, the depths and the counters unchanged
(it only ever rewrites one bucket's pair list). -/
theorem Remove_frame (hash : K → Nat) (s : ExtendibleHash K V) (key : K) :
    ((Remove hash s key).2).bucket_directory = s.bucket_directory ∧
    ((Remove hash s key).2).globalDepth = s.globalDepth ∧
    ((Remove hash s key).2).numBuckets = s.numBuckets ∧
    ((Remove hash s key).2).bucketsize = s.bucketsize := by
  unfold Remove
  split
  · split
    · split <;> simp
    · simp
  · simp

end ExtendibleHash

namespace ExtendibleHash

variable {K V : Type} [DecidableEq K]

/-- C4: if `Remove(k)` returns `true`, a subsequent `Find(k)` returns
not-found (the entry was deleted from its bucket); if `k` is absent from the
index (no bucket the directory references holds it), `Remove(k)` returns
`false` and leaves the entire state unchanged. -/
theorem remove_then_find_none (hash : K → Nat) (s : ExtendibleHash K V) (key : K) :
    ((Remove hash s key).1 = true → Find hash (Remove hash s key).2 key = none) ∧
    (keyAbsent s key → Remove hash s key = (false, s)) := by
  rcases hslot : s.bucket_directory[dirIndex hash s.globalDepth key]? with _ | mb
  · constructor
    · intro htrue
      simp [Remove, hslot] at htrue
    · intro _
      simp [Remove, hslot]
  · rcases mb with _ | b
    · constructor
      · intro htrue
        simp [Remove, hslot] at htrue
      · intro _
        simp [Remove, hslot]
    · rcases hpool : s.pool[b]? with _ | bk
      · constructor
        · intro htrue
          simp [Remove, hslot, hpool] at htrue
        · intro _
          simp [Remove, hslot, hpool]
      · rcases hfind : mapFind? bk.pairs key with _ | v
        · have hrem : Remove hash s key = (false, s) := by
            simp [Remove, hslot, hpool, hfind]
          constructor
          · intro htrue
            rw [hrem] at htrue
            cases htrue
          · intro _
            exact hrem
        · have hrem : Remove hash s key =
              (true, { s with pool := s.pool.set b ⟨bk.localDepth, mapErase bk.pairs key⟩ }) := by
            simp [Remove, hslot, hpool, hfind]
          constructor
          · intro _
            rw [hrem]
            simp only [Find]
            rw [hslot]
            simp [List.getElem?_set_self (lt_of_getElem?_some hpool), mapFind?_mapErase]
          · intro habs
            have hb : b ∈ refs s := (mem_refs_iff s b).2 ⟨_, hslot⟩
            have hnone := habs b hb bk hpool
            rw [hfind] at hnone
            cases hnone

end ExtendibleHash

namespace ExtendibleHash

variable {K V : Type} [DecidableEq K]

/-- A concrete one-bucket table holding the pair `(0, 10)`, bucket size 2:
the state the constructor plus one completed insert produces. -/
def demoState : ExtendibleHash Nat Nat :=
  { pool := [⟨0, [(0, 10)]⟩]
    bucket_directory := [some 0]
    numBuckets := 1
    bucketsize := 2
    globalDepth := 0 }

/-- C4 witness: on `demoState` (which holds key 0), `Remove 0` succeeds and
the subsequent `Find 0` misses; `Remove 5` (an absent key) returns `false`
and leaves the state unchanged.  `std::hash<int>` is the identity on
non-negative ints, hence the hash function `fun n => n`. -/
theorem remove_then_find_none_witness :
    Find (fun n => n) (Remove (fun n => n) demoState 0).2 0 = none ∧
    Remove (fun n => n) demoState 5 = (false, demoState) :=
  ⟨(remove_then_find_none (fun n => n) demoState 0).1 (by decide),
   (remove_then_find_none (fun n => n) demoState 5).2 (by
      intro b hb bk hbk
      have hb0 : b = 0 := by
        simpa [demoState, refs] using hb
      subst hb0
      have hbk2 : ({ localDepth := 0, pairs := [(0, 10)] } : Bucket Nat Nat) = bk := by
        simpa [demoState] using hbk
      subst hbk2
      rfl)⟩

/-- In one iteration of the insert loop, a split never decreases the global
depth and increments the bucket counter. -/
theorem splitStep_mono {K V : Type} (hash : K → Nat) (s : ExtendibleHash K V) (curr : Nat)
    (bk : Bucket K V) :
    s.globalDepth ≤ (splitStep hash s curr bk).globalDepth ∧
    (splitStep hash s curr bk).numBuckets = s.numBuckets + 1 ∧
    (splitStep hash s curr bk).bucketsize = s.bucketsize := by
  refine ⟨?_, rfl, rfl⟩
  simp only [splitStep]
  split <;> omega

/-- Across a terminating run of the insert loop, the global depth and the
bucket counter never decrease and the bucket size is unchanged. -/
theorem insertLoop_mono (hash : K → Nat) (key : K) (value : V) (curr : Nat) :
    ∀ (fuel : Nat) (s t : ExtendibleHash K V),
      insertLoop hash key value curr fuel s = some t →
      s.globalDepth ≤ t.globalDepth ∧ s.numBuckets ≤ t.numBuckets ∧
      s.bucketsize = t.bucketsize := by
  intro fuel
  induction fuel with
  | zero => intro s t h; cases h
  | succ fuel ih =>
      intro s t h
      rw [insertLoop] at h
      split at h
      · cases h
      · rename_i bk _
        split at h
        · cases h
          exact ⟨Nat.le_refl _, Nat.le_refl _, rfl⟩
        · obtain ⟨h1, h2, h3⟩ := ih (splitStep hash s curr bk) t h
          obtain ⟨m1, m2, m3⟩ := splitStep_mono hash s curr bk
          exact ⟨Nat.le_trans m1 h1, by omega, by rw [← h3, m3]⟩

/-- A completed `Insert` never decreases the global depth or the bucket
counter and keeps the bucket size. -/
theorem Insert_mono (hash : K → Nat) (fuel : Nat) (s t : ExtendibleHash K V)
    (key : K) (value : V) (h : Insert hash fuel s key value = some t) :
    s.globalDepth ≤ t.globalDepth ∧ s.numBuckets ≤ t.numBuckets ∧
    s.bucketsize = t.bucketsize := by
  rw [Insert] at h
  rcases hslot : s.bucket_directory[dirIndex hash s.globalDepth key]? with _ | mb
  · rw [hslot] at h
    cases h
    exact ⟨Nat.le_refl _, Nat.le_refl _, rfl⟩
  · rcases mb with _ | curr
    · rw [hslot] at h
      cases h
      exact ⟨Nat.le_refl _, Nat.le_refl _, rfl⟩
    · rw [hslot] at h
      exact insertLoop_mono hash key value curr fuel s t h

/-- One completed operation never decreases the global depth or the bucket
counter and keeps the bucket size. -/
theorem Step_mono (hash : K → Nat) {s t : ExtendibleHash K V} (h : Step hash s t) :
    s.globalDepth ≤ t.globalDepth ∧ s.numBuckets ≤ t.numBuckets ∧
    s.bucketsize = t.bucketsize := by
  cases h with
  | insert key value fuel hins => exact Insert_mono hash _ _ _ _ _ hins
  | remove key =>
      obtain ⟨-, h2, h3, h4⟩ := Remove_frame hash _ key
      exact ⟨Nat.le_of_eq h2.symm, Nat.le_of_eq h3.symm, h4.symm⟩
  | find key => exact ⟨Nat.le_refl _, Nat.le_refl _, rfl⟩

end ExtendibleHash

namespace ExtendibleHash

/-- C9: across every sequence of completed operations the global depth and
the bucket counter never decrease — no operation (in particular `Remove`)
merges buckets or shrinks the directory. -/
theorem depths_and_buckets_never_decrease {K V : Type} [DecidableEq K]
    (hash : K → Nat) (s t : ExtendibleHash K V) (h : Steps hash s t) :
    GetGlobalDepth s ≤ GetGlobalDepth t ∧ GetNumBuckets s ≤ GetNumBuckets t := by
  induction h with
  | refl => exact ⟨Nat.le_refl _, Nat.le_refl _⟩
  | tail hsteps hstep ih =>
      obtain ⟨m1, m2, -⟩ := Step_mono _ hstep
      exact ⟨Nat.le_trans ih.1 m1, Nat.le_trans ih.2 m2⟩

/-- C9 witness: a concrete two-operation sequence (insert key 0, then remove
it) from a fresh table of bucket size 2; the global depth and bucket count
do not decrease. -/
theorem depths_never_decrease_witness :
    GetGlobalDepth (init Nat Nat 2) ≤
      GetGlobalDepth (Remove (fun n => n) demoState 0).2 ∧
    GetNumBuckets (init Nat Nat 2) ≤
      GetNumBuckets (Remove (fun n => n) demoState 0).2 :=
  depths_and_buckets_never_decrease (fun n => n) _ _
    (Steps.tail
      (Steps.tail (Steps.refl _) (Step.insert 0 10 1 (by decide)))
      (Step.remove 0))

end ExtendibleHash

theorem bitSet_zero (d : Nat) : bitSet 0 d = false := by
  simp [bitSet, Nat.zero_div]

namespace ExtendibleHash

/-- The trace refuting C1 and C2: bucket size 2, identity hash
(`std::hash<int>` is the identity on non-negative ints, and the table is
instantiated at `K = int`).  Insert `(0,10)` and `(2,12)` — both land in the
single depth-0 bucket — then insert `(1,11)`, which forces two splits.  The
loop retries on the bucket captured at line 103 without re-routing (the
recompute at lines 138–139 runs only after the loop), so the pair `(1,11)`
is stored in that stale bucket although the directory routes key 1 to the
empty sibling created by the first split. -/
def buggyTrace : Option (ExtendibleHash Nat Nat) :=
  (Insert (fun n => n) 1 (init Nat Nat 2) 0 10).bind fun s1 =>
    (Insert (fun n => n) 1 s1 2 12).bind fun s2 =>
      Insert (fun n => n) 3 s2 1 11

/-- C1 (code bug): the three inserts of `buggyTrace` all complete (the value
under the `Option.map` is reached), yet `Find` of the just-inserted key 1
returns not-found, against the claim that `find(k)` returns `v` after
`insert(k, v)` completes. -/
theorem find_after_insert_misses :
    buggyTrace.map (fun s => Find (fun n => n) s 1) = some none := by
  decide

/-- C2 (code bug): in the final state of `buggyTrace` the bucket in pool
cell 0 has local depth 2 yet holds keys 0 and 1, whose hashes differ on the
low 2 bits (`0 % 4 ≠ 1 % 4`): the bucket discriminant invariant is violated,
because the pending insert is not re-routed before its retry. -/
theorem discriminant_invariant_violated :
    buggyTrace.map (fun s => s.pool[0]?) =
      some (some ⟨2, [(0, 10), (1, 11)]⟩) ∧ (0 : Nat) % 2 ^ 2 ≠ 1 % 2 ^ 2 := by
  exact ⟨by decide, by decide⟩

/-- The state `Insert(0, 10)` produces on a fresh table of bucket size 1. -/
def fullOne : ExtendibleHash Nat Nat :=
  { pool := [⟨0, [(0, 10)]⟩]
    bucket_directory := [some 0]
    numBuckets := 1
    bucketsize := 1
    globalDepth := 0 }

/-- With bucket size 1, inserting key 1 while pool cell 0 holds exactly
`[(0, 10)]` runs forever: every iteration splits, key 0 (all of whose hash
bits are 0) stays, the cell keeps size 1 = bucketsize, and the captured
bucket is never re-routed — for any fuel the loop does not terminate. -/
theorem insertLoop_never_terminates : ∀ (fuel dep : Nat) (s : ExtendibleHash Nat Nat),
    s.pool[0]? = some ⟨dep, [(0, 10)]⟩ → s.bucketsize = 1 →
    insertLoop (fun n => n) 1 11 0 fuel s = none := by
  intro fuel
  induction fuel with
  | zero => intro dep s h1 h2; rfl
  | succ fuel ih =>
      intro dep s h1 h2
      rw [insertLoop]
      simp only [h1, h2]
      rw [if_neg (by decide)]
      apply ih (dep + 1)
      · have hlen : 0 < s.pool.length := lt_of_getElem?_some h1
        simp only [splitStep]
        rw [List.getElem?_append_left (by simpa using hlen)]
        rw [List.getElem?_set_self (by simpa using hlen)]
        simp [List.filter_cons, bitSet_zero]
      · simpa [splitStep] using h2

/-- C3 (code bug): with bucket size 1 and identity hash, `Insert(0, 10)` on
a fresh table completes and yields `fullOne`, and the next `Insert(1, 11)`
never terminates — for every fuel the loop is still splitting.  The code has
no cap at the hash width and never surfaces a capacity error; it loops
forever (doubling the directory each iteration). -/
theorem insert_never_terminates :
    Insert (fun n => n) 1 (init Nat Nat 1) 0 10 = some fullOne ∧
    ∀ fuel : Nat, Insert (fun n => n) fuel fullOne 1 11 = none := by
  constructor
  · decide
  · intro fuel
    have h0 : Insert (fun n => n) fuel fullOne 1 11 =
        insertLoop (fun n => n) 1 11 0 fuel fullOne := rfl
    rw [h0]
    exact insertLoop_never_terminates fuel 0 fullOne rfl rfl

end ExtendibleHash

namespace ExtendibleHash

/-- C5 counterexample: on a freshly constructed table the directory has one
slot, so index 5 is out of range; `GetLocalDepth` performs an unchecked
`std::vector::operator[]` there — undefined behaviour — and does *not*
produce the propagated out-of-range error the claim asserts. -/
theorem getLocalDepth_oob_not_error :
    GetLocalDepth (init Nat Nat 4) 5 = DepthResult.undefined ∧
    GetLocalDepth (init Nat Nat 4) 5 ≠ DepthResult.outOfRangeError := by
  exact ⟨by decide, by decide⟩

/-- Membership in the directory gives membership in `refs`. -/
theorem mem_refs_of_mem {K V : Type} {s : ExtendibleHash K V} {b : Nat}
    (h : some b ∈ s.bucket_directory) : b ∈ refs s :=
  List.mem_filterMap.2 ⟨some b, h, rfl⟩

/-- Every slot of `updateSlots c n d i l` is `some n` or a slot of `l`. -/
theorem updateSlots_mem {c n d : Nat} : ∀ {i : Nat} {l : List (Option Nat)}
    {slot : Option Nat}, slot ∈ updateSlots c n d i l → slot = some n ∨ slot ∈ l := by
  intro i l
  induction l generalizing i with
  | nil => intro slot h; cases h
  | cons a rest ih =>
      intro slot h
      rw [updateSlots] at h
      rcases List.mem_cons.1 h with h1 | h1
      · by_cases hc : a = some c ∧ bitSet i d
        · rw [if_pos hc] at h1
          exact Or.inl h1
        · rw [if_neg hc] at h1
          exact Or.inr (h1 ▸ List.mem_cons_self a rest)
      · rcases ih h1 with h2 | h2
        · exact Or.inl h2
        · exact Or.inr (List.mem_cons_of_mem a h2)

/-- `updateSlots` from position 0, slot by slot. -/
theorem updateSlots_spec (c n d : Nat) (l : List (Option Nat)) (j : Nat) :
    (updateSlots c n d 0 l)[j]? =
      (l[j]?).map fun slot => if slot = some c ∧ bitSet j d then some n else slot := by
  have h := updateSlots_getElem? c n d l 0 j
  simpa using h

/-- Doubling the directory preserves every bucket's residue-class
characterization, because the bucket's depth divides the old length. -/
theorem class_append {dir : List (Option Nat)} {g dep p1 b : Nat}
    (hlen : dir.length = 2 ^ g) (hdep : dep ≤ g)
    (hclass : ∀ i < dir.length, (dir[i]? = some (some b) ↔ i % 2 ^ dep = p1)) :
    ∀ i < (dir ++ dir).length, ((dir ++ dir)[i]? = some (some b) ↔ i % 2 ^ dep = p1) := by
  intro i hi
  rw [List.length_append] at hi
  by_cases hcase : i < dir.length
  · rw [List.getElem?_append_left hcase]
    exact hclass i hcase
  · push_neg at hcase
    rw [List.getElem?_append_right hcase]
    have hsub : i - dir.length < dir.length := by omega
    have hiff := hclass (i - dir.length) hsub
    have hsplit : (2 : Nat) ^ g = 2 ^ dep * 2 ^ (g - dep) := by
      rw [← pow_add]
      congr 1
      omega
    have hmod : (i - dir.length) % 2 ^ dep = i % 2 ^ dep := by
      have hrepr : i = (i - dir.length) + 2 ^ dep * 2 ^ (g - dep) := by
        rw [hlen] at hcase ⊢
        omega
      conv_rhs => rw [hrepr]
      rw [Nat.add_mul_mod_self_left]
    rw [hiff, hmod]

end ExtendibleHash

namespace ExtendibleHash

/-- The directory-structure fact for one referenced bucket: a pattern `p`
below `2 ^ localDepth` such that the slots referencing the bucket are
exactly the indices congruent to `p` modulo `2 ^ localDepth`. -/
def hasResidue {K V : Type} (s : ExtendibleHash K V) (b : Nat) (bk : Bucket K V) : Prop :=
  ∃ p < 2 ^ bk.localDepth, ∀ i < s.bucket_directory.length,
    (s.bucket_directory[i]? = some (some b) ↔ i % 2 ^ bk.localDepth = p)

/-- The inductive invariant of reachable states: the directory has
`2 ^ globalDepth` slots, none null, every referenced bucket lives in the
pool, has local depth at most the global depth and owns exactly one residue
class of slots, and the counter equals the number of distinct referenced
buckets. -/
structure Inv {K V : Type} (s : ExtendibleHash K V) : Prop where
  lenEq : s.bucket_directory.length = 2 ^ s.globalDepth
  slotsSome : ∀ slot ∈ s.bucket_directory, slot.isSome
  validRef : ∀ b ∈ refs s, b < s.pool.length
  depthLe : ∀ b ∈ refs s, ∀ bk : Bucket K V, s.pool[b]? = some bk →
    bk.localDepth ≤ s.globalDepth
  residue : ∀ b ∈ refs s, ∀ bk : Bucket K V, s.pool[b]? = some bk →
    hasResidue s b bk
  countEq : s.numBuckets = distinctBuckets s

/-- The freshly constructed table satisfies the invariant. -/
theorem Inv_init (K V : Type) (size : Nat) : Inv (init K V size) := by
  refine ⟨rfl, ?_, ?_, ?_, ?_, ?_⟩
  · intro slot h
    rcases List.mem_singleton.1 h with rfl
    rfl
  · intro b hb
    have : b = 0 := by simpa [refs, init] using hb
    subst this
    simp [init]
  · intro b hb bk hbk
    have : b = 0 := by simpa [refs, init] using hb
    subst this
    have : bk = ⟨0, []⟩ := by
      have := hbk
      simp [init] at this
      exact this.symm
    subst this
    exact Nat.zero_le _
  · intro b hb bk hbk
    have : b = 0 := by simpa [refs, init] using hb
    subst this
    have : bk = ⟨0, []⟩ := by
      have := hbk
      simp [init] at this
      exact this.symm
    subst this
    refine ⟨0, by simp, ?_⟩
    intro i hi
    have hi1 : i < 1 := by simpa [init] using hi
    have : i = 0 := by omega
    subst this
    simp [init]
  · rfl

/-- Rewriting one pool cell's pair list (its depth unchanged) preserves the
invariant: the directory, the counters and every depth are untouched. -/
theorem Inv_setPairs {K V : Type} {s : ExtendibleHash K V} (hInv : Inv s) (b : Nat)
    (bk : Bucket K V) (hbk : s.pool[b]? = some bk) (newPairs : List (K × V)) :
    Inv { s with pool := s.pool.set b ⟨bk.localDepth, newPairs⟩ } := by
  obtain ⟨hlen, hsome, hvalid, hdepth, hres, hcount⟩ := hInv
  have hblt : b < s.pool.length := lt_of_getElem?_some hbk
  refine ⟨hlen, hsome, ?_, ?_, ?_, hcount⟩
  · intro b1 hb1
    simpa using hvalid b1 hb1
  · intro b1 hb1 bk1 hbk1
    by_cases hbeq : b = b1
    · subst hbeq
      rw [show ({ s with pool := s.pool.set b ⟨bk.localDepth, newPairs⟩ } :
            ExtendibleHash K V).pool = s.pool.set b ⟨bk.localDepth, newPairs⟩ from rfl,
          List.getElem?_set_self hblt] at hbk1
      cases hbk1
      exact hdepth b hb1 bk hbk
    · rw [show ({ s with pool := s.pool.set b ⟨bk.localDepth, newPairs⟩ } :
            ExtendibleHash K V).pool = s.pool.set b ⟨bk.localDepth, newPairs⟩ from rfl,
          List.getElem?_set_ne hbeq] at hbk1
      exact hdepth b1 hb1 bk1 hbk1
  · intro b1 hb1 bk1 hbk1
    by_cases hbeq : b = b1
    · subst hbeq
      rw [show ({ s with pool := s.pool.set b ⟨bk.localDepth, newPairs⟩ } :
            ExtendibleHash K V).pool = s.pool.set b ⟨bk.localDepth, newPairs⟩ from rfl,
          List.getElem?_set_self hblt] at hbk1
      cases hbk1
      exact hres b hb1 bk hbk
    · rw [show ({ s with pool := s.pool.set b ⟨bk.localDepth, newPairs⟩ } :
            ExtendibleHash K V).pool = s.pool.set b ⟨bk.localDepth, newPairs⟩ from rfl,
          List.getElem?_set_ne hbeq] at hbk1
      exact hres b1 hb1 bk1 hbk1

end ExtendibleHash

namespace ExtendibleHash

/-- A split preserves the invariant, and the split bucket stays referenced.
The new global depth dominates both the old one and the split bucket's new
local depth; the split bucket keeps the slots of its residue class whose
discriminating bit is 0, the fresh sibling gets those whose bit is 1, and
every other bucket's slots are untouched. -/
theorem Inv_splitStep {K V : Type} (hash : K → Nat) {s : ExtendibleHash K V}
    {curr : Nat} {bk : Bucket K V}
    (hInv : Inv s) (hmem : curr ∈ refs s) (hcur : s.pool[curr]? = some bk) :
    Inv (splitStep hash s curr bk) ∧ curr ∈ refs (splitStep hash s curr bk) := by
  obtain ⟨hlen, hsome, hvalid, hdepth, hres, hcount⟩ := hInv
  have hd : bk.localDepth ≤ s.globalDepth := hdepth curr hmem bk hcur
  have hcurlt : curr < s.pool.length := hvalid curr hmem
  have hstrict : (0 : Nat) < 2 ^ bk.localDepth := Nat.pos_pow_of_pos _ (by decide)
  obtain ⟨p, hp, hclass⟩ := hres curr hmem bk hcur
  obtain ⟨g1, dir1, hg1, hdir1, hgle, hdle, hlen1, hmem1, hclass1⟩ :
      ∃ (g1 : Nat) (dir1 : List (Option Nat)),
        (splitStep hash s curr bk).globalDepth = g1 ∧
        (splitStep hash s curr bk).bucket_directory =
          updateSlots curr s.pool.length bk.localDepth 0 dir1 ∧
        s.globalDepth ≤ g1 ∧ bk.localDepth + 1 ≤ g1 ∧
        dir1.length = 2 ^ g1 ∧
        (∀ slot ∈ dir1, slot ∈ s.bucket_directory) ∧
        (∀ b1 dep p1 : Nat, dep ≤ s.globalDepth →
          (∀ i < s.bucket_directory.length,
            (s.bucket_directory[i]? = some (some b1) ↔ i % 2 ^ dep = p1)) →
          ∀ i < dir1.length, (dir1[i]? = some (some b1) ↔ i % 2 ^ dep = p1)) := by
    by_cases hdb : bk.localDepth + 1 > s.globalDepth
    · refine ⟨s.globalDepth + 1, s.bucket_directory ++ s.bucket_directory,
        by simp [splitStep, hdb], by simp [splitStep, hdb], by omega, by omega,
        ?_, ?_, ?_⟩
      · rw [List.length_append, hlen, pow_succ]
        omega
      · intro slot hslot
        rcases List.mem_append.1 hslot with h | h <;> exact h
      · intro b1 dep p1 hdep hcl
        exact class_append hlen hdep hcl
    · refine ⟨s.globalDepth, s.bucket_directory,
        by simp [splitStep, hdb], by simp [splitStep, hdb], Nat.le_refl _, by omega,
        hlen, fun slot h => h, fun b1 dep p1 hdep hcl => hcl⟩
  have hg1pow : (2 : Nat) ^ (bk.localDepth + 1) ≤ 2 ^ g1 :=
    Nat.pow_le_pow_right (by decide) hdle
  have hget : ∀ j : Nat, (splitStep hash s curr bk).bucket_directory[j]? =
      (dir1[j]?).map fun slot =>
        if slot = some curr ∧ bitSet j bk.localDepth then some s.pool.length
        else slot := by
    intro j
    rw [hdir1]
    exact updateSlots_spec _ _ _ _ _
  have hnewlen : (splitStep hash s curr bk).bucket_directory.length = 2 ^ g1 := by
    rw [hdir1, updateSlots_length, hlen1]
  have hcc : ∀ i < dir1.length, (dir1[i]? = some (some curr) ↔ i % 2 ^ bk.localDepth = p) :=
    hclass1 curr bk.localDepth p hd hclass
  have hfresh : ∀ (j : Nat) (slot : Option Nat), dir1[j]? = some slot →
      slot ≠ some s.pool.length := by
    intro j slot hj heq
    subst heq
    have hmemdir : some s.pool.length ∈ s.bucket_directory :=
      hmem1 _ (List.getElem?_mem hj)
    exact absurd (hvalid _ (mem_refs_of_mem hmemdir)) (Nat.lt_irrefl _)
  have hpool_curr : (splitStep hash s curr bk).pool[curr]? =
      some ⟨bk.localDepth + 1,
        bk.pairs.filter fun q => ¬ bitSet (hash q.1) bk.localDepth⟩ := by
    simp only [splitStep]
    rw [List.getElem?_append_left (by simpa using hcurlt),
      List.getElem?_set_self hcurlt]
  have hpool_new : (splitStep hash s curr bk).pool[s.pool.length]? =
      some ⟨bk.localDepth + 1,
        bk.pairs.filter fun q => bitSet (hash q.1) bk.localDepth⟩ := by
    simp only [splitStep]
    rw [List.getElem?_append_right (by simp)]
    simp
  have hpool_other : ∀ b1 : Nat, b1 ≠ curr → b1 < s.pool.length →
      (splitStep hash s curr bk).pool[b1]? = s.pool[b1]? := by
    intro b1 hne hlt
    simp only [splitStep]
    rw [List.getElem?_append_left (by simpa using hlt),
      List.getElem?_set_ne (Ne.symm hne)]
  have hslot_curr : ∀ j < 2 ^ g1,
      ((splitStep hash s curr bk).bucket_directory[j]? = some (some curr) ↔
        j % 2 ^ (bk.localDepth + 1) = p) := by
    intro j hj
    have hjlen : j < dir1.length := by rw [hlen1]; exact hj
    rw [hget j]
    rcases hj1 : dir1[j]? with _ | slot
    · exact absurd hjlen (Nat.not_lt.2 (List.getElem?_eq_none_iff.1 hj1))
    · simp only [Option.map_some']
      by_cases hsc : slot = some curr
      · subst hsc
        have hjd : j % 2 ^ bk.localDepth = p := (hcc j hjlen).1 hj1
        by_cases hbit : bitSet j bk.localDepth
        · rw [if_pos ⟨rfl, hbit⟩]
          apply iff_of_false
          · intro hcontra
            have hne : s.pool.length = curr := by simpa using hcontra
            omega
          · intro hmod
            rw [mod_succ_of_bit_true hjd hbit] at hmod
            omega
        · have hbitf : bitSet j bk.localDepth = false := by simpa using hbit
          rw [if_neg (fun h => hbit h.2)]
          simp [mod_succ_of_bit_false hjd hbitf]
      · rw [if_neg (fun h => hsc h.1)]
        apply iff_of_false
        · intro hcontra
          exact hsc (by simpa using hcontra)
        · intro hmod
          obtain ⟨hjd, -⟩ := of_mod_succ_lo hp hmod
          have hco : dir1[j]? = some (some curr) := (hcc j hjlen).2 hjd
          rw [hj1] at hco
          exact hsc (by simpa using hco)
  have hslot_new : ∀ j < 2 ^ g1,
      ((splitStep hash s curr bk).bucket_directory[j]? = some (some s.pool.length) ↔
        j % 2 ^ (bk.localDepth + 1) = p + 2 ^ bk.localDepth) := by
    intro j hj
    have hjlen : j < dir1.length := by rw [hlen1]; exact hj
    rw [hget j]
    rcases hj1 : dir1[j]? with _ | slot
    · exact absurd hjlen (Nat.not_lt.2 (List.getElem?_eq_none_iff.1 hj1))
    · simp only [Option.map_some']
      by_cases hsc : slot = some curr
      · subst hsc
        have hjd : j % 2 ^ bk.localDepth = p := (hcc j hjlen).1 hj1
        by_cases hbit : bitSet j bk.localDepth
        · rw [if_pos ⟨rfl, hbit⟩]
          simp [mod_succ_of_bit_true hjd hbit]
        · have hbitf : bitSet j bk.localDepth = false := by simpa using hbit
          rw [if_neg (fun h => hbit h.2)]
          apply iff_of_false
          · intro hcontra
            have : curr = s.pool.length := by simpa using hcontra
            omega
          · intro hmod
            rw [mod_succ_of_bit_false hjd hbitf] at hmod
            omega
      · rw [if_neg (fun h => hsc h.1)]
        apply iff_of_false
        · intro hcontra
          exact hfresh j slot hj1 (by simpa using hcontra)
        · intro hmod
          obtain ⟨hjd, -⟩ := of_mod_succ_hi hp hmod
          have hco : dir1[j]? = some (some curr) := (hcc j hjlen).2 hjd
          rw [hj1] at hco
          exact hsc (by simpa using hco)
  have hslot_other : ∀ b1 : Nat, b1 ≠ curr → b1 ≠ s.pool.length → ∀ j : Nat,
      ((splitStep hash s curr bk).bucket_directory[j]? = some (some b1) ↔
        dir1[j]? = some (some b1)) := by
    intro b1 hne1 hne2 j
    rw [hget j]
    rcases hj1 : dir1[j]? with _ | slot
    · simp
    · simp only [Option.map_some']
      by_cases hcond : slot = some curr ∧ bitSet j bk.localDepth
      · rw [if_pos hcond]
        apply iff_of_false
        · intro h
          have : s.pool.length = b1 := by simpa using h
          exact hne2 this.symm
        · intro h
          have hsl : slot = some b1 := by simpa using h
          rw [hcond.1] at hsl
          have hcb : curr = b1 := by simpa using hsl
          exact hne1 hcb.symm
      · rw [if_neg hcond]
  have hcurr_t : curr ∈ refs (splitStep hash s curr bk) := by
    apply (mem_refs_iff _ _).2
    have hp1 : p < 2 ^ (bk.localDepth + 1) := by
      rw [pow_succ]
      omega
    refine ⟨p, ?_⟩
    exact (hslot_curr p (lt_of_lt_of_le hp1 hg1pow)).2 (Nat.mod_eq_of_lt hp1)
  have hnew_t : s.pool.length ∈ refs (splitStep hash s curr bk) := by
    apply (mem_refs_iff _ _).2
    have hq : p + 2 ^ bk.localDepth < 2 ^ (bk.localDepth + 1) := by
      rw [pow_succ]
      omega
    refine ⟨p + 2 ^ bk.localDepth, ?_⟩
    exact (hslot_new _ (lt_of_lt_of_le hq hg1pow)).2 (Nat.mod_eq_of_lt hq)
  have hsub : ∀ b1 ∈ refs s, b1 ∈ refs (splitStep hash s curr bk) := by
    intro b1 hb1
    by_cases hbc : b1 = curr
    · subst hbc
      exact hcurr_t
    · have hbnew : b1 ≠ s.pool.length := by
        have := hvalid b1 hb1
        omega
      obtain ⟨bk1, hbk1⟩ : ∃ bk1, s.pool[b1]? = some bk1 := by
        have hlt := hvalid b1 hb1
        rcases hx : s.pool[b1]? with _ | bk1
        · exact absurd hlt (Nat.not_lt.2 (List.getElem?_eq_none_iff.1 hx))
        · exact ⟨bk1, rfl⟩
      obtain ⟨p1, hp1, hcl1⟩ := hres b1 hb1 bk1 hbk1
      have hdep1 : bk1.localDepth ≤ s.globalDepth := hdepth b1 hb1 bk1 hbk1
      apply (mem_refs_iff _ _).2
      refine ⟨p1, ?_⟩
      have hp1len : p1 < dir1.length := by
        rw [hlen1]
        exact lt_of_lt_of_le hp1
          (le_trans (Nat.pow_le_pow_right (by decide) hdep1)
            (Nat.pow_le_pow_right (by decide) hgle))
      rw [hslot_other b1 hbc hbnew p1]
      exact (hclass1 b1 bk1.localDepth p1 hdep1 hcl1 p1 hp1len).2 (Nat.mod_eq_of_lt hp1)
  have hsup : ∀ b1 ∈ refs (splitStep hash s curr bk),
      b1 = s.pool.length ∨ b1 ∈ refs s := by
    intro b1 hb1
    obtain ⟨j, hj⟩ := (mem_refs_iff _ _).1 hb1
    have hjmem : some b1 ∈ (splitStep hash s curr bk).bucket_directory :=
      List.getElem?_mem hj
    rw [hdir1] at hjmem
    rcases updateSlots_mem hjmem with h | h
    · exact Or.inl (by simpa using h)
    · exact Or.inr (mem_refs_of_mem (hmem1 _ h))
  have hpl : (splitStep hash s curr bk).pool.length = s.pool.length + 1 := by
    simp [splitStep]
  refine ⟨⟨?_, ?_, ?_, ?_, ?_, ?_⟩, hcurr_t⟩
  · rw [hnewlen, hg1]
  · intro slot hslot
    rw [hdir1] at hslot
    rcases updateSlots_mem hslot with h | h
    · subst h
      rfl
    · exact hsome slot (hmem1 slot h)
  · intro b1 hb1
    rw [hpl]
    rcases hsup b1 hb1 with h | h
    · omega
    · have := hvalid b1 h
      omega
  · intro b1 hb1 bk1 hbk1
    rw [hg1]
    by_cases hc1 : b1 = curr
    · subst hc1
      rw [hpool_curr] at hbk1
      cases hbk1
      exact hdle
    · by_cases hc2 : b1 = s.pool.length
      · subst hc2
        rw [hpool_new] at hbk1
        cases hbk1
        exact hdle
      · rcases hsup b1 hb1 with h | h
        · exact absurd h hc2
        · rw [hpool_other b1 hc1 (hvalid b1 h)] at hbk1
          exact le_trans (hdepth b1 h bk1 hbk1) hgle
  · intro b1 hb1 bk1 hbk1
    by_cases hc1 : b1 = curr
    · subst hc1
      rw [hpool_curr] at hbk1
      cases hbk1
      refine ⟨p, ?_, ?_⟩
      · exact lt_of_lt_of_le hp (by rw [pow_succ]; omega)
      · intro i hi
        rw [hnewlen] at hi
        exact hslot_curr i hi
    · by_cases hc2 : b1 = s.pool.length
      · subst hc2
        rw [hpool_new] at hbk1
        cases hbk1
        refine ⟨p + 2 ^ bk.localDepth, ?_, ?_⟩
        · rw [pow_succ]
          omega
        · intro i hi
          rw [hnewlen] at hi
          exact hslot_new i hi
      · rcases hsup b1 hb1 with h | h
        · exact absurd h hc2
        · rw [hpool_other b1 hc1 (hvalid b1 h)] at hbk1
          obtain ⟨p1, hp1, hcl1⟩ := hres b1 h bk1 hbk1
          have hdep1 : bk1.localDepth ≤ s.globalDepth := hdepth b1 h bk1 hbk1
          refine ⟨p1, hp1, ?_⟩
          intro i hi
          rw [hnewlen] at hi
          rw [hslot_other b1 hc1 hc2 i]
          exact hclass1 b1 bk1.localDepth p1 hdep1 hcl1 i (by rw [hlen1]; exact hi)
  · have hfinset : (refs (splitStep hash s curr bk)).toFinset =
        insert s.pool.length (refs s).toFinset := by
      ext b1
      simp only [List.mem_toFinset, Finset.mem_insert]
      constructor
      · intro hb1
        rcases hsup b1 hb1 with h | h
        · exact Or.inl h
        · exact Or.inr h
      · intro hb1
        rcases hb1 with h | h
        · subst h
          exact hnew_t
        · exact hsub b1 h
    have hnotmem : s.pool.length ∉ (refs s).toFinset := by
      intro hcontra
      exact absurd (hvalid _ (List.mem_toFinset.1 hcontra)) (Nat.lt_irrefl _)
    have hdistinct : distinctBuckets (splitStep hash s curr bk) = distinctBuckets s + 1 := by
      rw [distinctBuckets, distinctBuckets, hfinset,
        Finset.card_insert_of_not_mem hnotmem]
    show s.numBuckets + 1 = distinctBuckets (splitStep hash s curr bk)
    rw [hdistinct, hcount]

end ExtendibleHash

namespace ExtendibleHash

/-- A terminating run of the insert loop preserves the invariant: each
iteration either stores the pair in the captured bucket (a pool-cell rewrite
of the same depth) or splits and continues. -/
theorem Inv_insertLoop {K V : Type} [DecidableEq K] (hash : K → Nat) (key : K)
    (value : V) (curr : Nat) : ∀ (fuel : Nat) (s t : ExtendibleHash K V),
    Inv s → curr ∈ refs s → insertLoop hash key value curr fuel s = some t →
    Inv t := by
  intro fuel
  induction fuel with
  | zero => intro s t _ _ h; cases h
  | succ fuel ih =>
      intro s t hInv hmem h
      rw [insertLoop] at h
      split at h
      · cases h
      · rename_i bk heq
        split at h
        · cases h
          exact Inv_setPairs hInv curr bk heq _
        · obtain ⟨hInv1, hmem1⟩ := Inv_splitStep hash hInv hmem heq
          exact ih (splitStep hash s curr bk) t hInv1 hmem1 h

/-- A completed `Insert` preserves the invariant. -/
theorem Inv_Insert {K V : Type} [DecidableEq K] (hash : K → Nat) (fuel : Nat)
    {s t : ExtendibleHash K V} (key : K) (value : V)
    (hInv : Inv s) (h : Insert hash fuel s key value = some t) : Inv t := by
  rw [Insert] at h
  split at h
  · rename_i curr heq
    exact Inv_insertLoop hash key value curr fuel s t hInv
      ((mem_refs_iff s curr).2 ⟨_, heq⟩) h
  · cases h
    exact hInv
  · cases h
    exact hInv

/-- `Remove` preserves the invariant. -/
theorem Inv_Remove {K V : Type} [DecidableEq K] (hash : K → Nat)
    {s : ExtendibleHash K V} (hInv : Inv s) (key : K) :
    Inv (Remove hash s key).2 := by
  rcases hslot : s.bucket_directory[dirIndex hash s.globalDepth key]? with _ | mb
  · simpa [Remove, hslot] using hInv
  · rcases mb with _ | b
    · simpa [Remove, hslot] using hInv
    · rcases hpool : s.pool[b]? with _ | bk
      · simpa [Remove, hslot, hpool] using hInv
      · rcases hfind : mapFind? bk.pairs key with _ | v
        · simpa [Remove, hslot, hpool, hfind] using hInv
        · have hrem : Remove hash s key =
              (true, { s with
                pool := s.pool.set b ⟨bk.localDepth, mapErase bk.pairs key⟩ }) := by
            simp [Remove, hslot, hpool, hfind]
          rw [hrem]
          exact Inv_setPairs hInv b bk hpool _

/-- Every reachable state satisfies the invariant. -/
theorem Inv_reachable {K V : Type} [DecidableEq K] (hash : K → Nat)
    {s : ExtendibleHash K V} (h : Reachable hash s) : Inv s := by
  induction h with
  | init size => exact Inv_init K V size
  | insert key value fuel hreach hins ih => exact Inv_Insert hash _ key value ih hins
  | remove key hreach ih => exact Inv_Remove hash ih key

end ExtendibleHash

namespace ExtendibleHash

/-- The state after `Insert(0,10)` and `Insert(2,12)` on a fresh table of
bucket size 2 (both keys land in the single depth-0 bucket). -/
def st2 : ExtendibleHash Nat Nat :=
  { pool := [⟨0, [(0, 10), (2, 12)]⟩]
    bucket_directory := [some 0]
    numBuckets := 1
    bucketsize := 2
    globalDepth := 0 }

/-- The state `Insert(1,11)` then produces: two splits, directory of four
slots over three distinct buckets (slots 1 and 3 alias bucket 1). -/
def st3 : ExtendibleHash Nat Nat :=
  { pool := [⟨2, [(0, 10), (1, 11)]⟩, ⟨1, []⟩, ⟨2, [(2, 12)]⟩]
    bucket_directory := [some 0, some 1, some 2, some 1]
    numBuckets := 3
    bucketsize := 2
    globalDepth := 2 }

/-- `demoState` is reachable: one completed insert from a fresh table. -/
theorem reachable_demoState : Reachable (fun n => n) demoState := by
  have h1 : Insert (fun n => n) 1 (init Nat Nat 2) 0 10 = some demoState := by decide
  exact Reachable.insert 0 10 1 (Reachable.init 2) h1

/-- `st3` is reachable: three completed inserts from a fresh table. -/
theorem reachable_st3 : Reachable (fun n => n) st3 := by
  have h2 : Insert (fun n => n) 1 demoState 2 12 = some st2 := by decide
  have h3 : Insert (fun n => n) 3 st2 1 11 = some st3 := by decide
  exact Reachable.insert 1 11 3 (Reachable.insert 2 12 1 reachable_demoState h2) h3

/-- C7: in every reachable state (after construction and after every
completed operation) the number of directory slots equals
`2 ^ globalDepth`. -/
theorem directory_size_eq_pow_globalDepth {K V : Type} [DecidableEq K]
    (hash : K → Nat) {s : ExtendibleHash K V} (h : Reachable hash s) :
    s.bucket_directory.length = 2 ^ GetGlobalDepth s :=
  (Inv_reachable hash h).lenEq

/-- C7 witness: the reachable state `st3` has `2 ^ 2 = 4` slots. -/
theorem directory_size_witness :
    st3.bucket_directory.length = 2 ^ GetGlobalDepth st3 :=
  directory_size_eq_pow_globalDepth (fun n => n) reachable_st3

/-- C6: in every reachable state `GetNumBuckets` returns the number of
distinct buckets referenced by the directory (aliased slots deduplicated),
not the slot count: the maintained counter equals the deduplicated count. -/
theorem numBuckets_eq_distinct {K V : Type} [DecidableEq K] (hash : K → Nat)
    {s : ExtendibleHash K V} (h : Reachable hash s) :
    GetNumBuckets s = distinctBuckets s :=
  (Inv_reachable hash h).countEq

/-- C6 witness: `st3` has four directory slots but `GetNumBuckets` returns
3, the number of distinct referenced buckets (slots 1 and 3 alias one
bucket). -/
theorem numBuckets_witness : GetNumBuckets st3 = distinctBuckets st3 :=
  numBuckets_eq_distinct (fun n => n) reachable_st3

/-- C8: in every reachable state, whenever `GetLocalDepth` returns a value
for a slot index, that local depth is at most the global depth. -/
theorem localDepth_le_globalDepth {K V : Type} [DecidableEq K] (hash : K → Nat)
    {s : ExtendibleHash K V} (h : Reachable hash s) (i : Int) (dep : Nat)
    (hok : GetLocalDepth s i = DepthResult.ok dep) : dep ≤ GetGlobalDepth s := by
  obtain ⟨hlen, hsome, hvalid, hdepth, hres, hcount⟩ := Inv_reachable hash h
  rw [GetLocalDepth] at hok
  split at hok
  · split at hok
    · rename_i b heq
      split at hok
      · rename_i bk heq2
        cases hok
        exact hdepth b ((mem_refs_iff s b).2 ⟨_, heq⟩) bk heq2
      · cases hok
    · cases hok
  · cases hok

/-- C8 witness: in `st3` slot 0's bucket has local depth 2, which equals
the global depth. -/
theorem localDepth_le_witness : (2 : Nat) ≤ GetGlobalDepth st3 :=
  localDepth_le_globalDepth (fun n => n) reachable_st3 0 2 (by decide)

/-- C10: in every reachable state every directory slot holds a non-null
bucket reference, and the slot any key routes to references a bucket;
consequently the null-check branches of `Find` (line 61), `Remove` (line 78)
and `Insert` (line 102) can never be taken. -/
theorem no_null_slots {K V : Type} [DecidableEq K] (hash : K → Nat)
    {s : ExtendibleHash K V} (h : Reachable hash s) :
    (∀ slot ∈ s.bucket_directory, slot.isSome) ∧
    ∀ key : K, ∃ b : Nat,
      s.bucket_directory[dirIndex hash s.globalDepth key]? = some (some b) := by
  obtain ⟨hlen, hsome, hvalid, hdepth, hres, hcount⟩ := Inv_reachable hash h
  refine ⟨hsome, ?_⟩
  intro key
  have hidlt : dirIndex hash s.globalDepth key < s.bucket_directory.length := by
    rw [hlen]
    exact Nat.mod_lt _ (Nat.pos_pow_of_pos _ (by decide))
  rcases hslot : s.bucket_directory[dirIndex hash s.globalDepth key]? with _ | mb
  · exact absurd hidlt (Nat.not_lt.2 (List.getElem?_eq_none_iff.1 hslot))
  · rcases mb with _ | b
    · have hcontra := hsome none (List.getElem?_mem hslot)
      cases hcontra
    · exact ⟨b, rfl⟩

/-- C10 witness: in the reachable state `st3` every slot is non-null and
key 1 routes to a referenced bucket. -/
theorem no_null_slots_witness :
    (∀ slot ∈ st3.bucket_directory, slot.isSome) ∧
    ∀ key : Nat, ∃ b : Nat,
      st3.bucket_directory[dirIndex (fun n => n) st3.globalDepth key]? =
        some (some b) :=
  no_null_slots (fun n => n) reachable_st3

/-- C5 (amended): for an index in `[0, directorySize)` `GetLocalDepth`
returns the local depth of the bucket that slot references; for an index
outside that range it performs an unchecked `std::vector` access —
undefined behaviour — and no out-of-range error is raised or propagated. -/
theorem getLocalDepth_spec {K V : Type} [DecidableEq K] (hash : K → Nat)
    {s : ExtendibleHash K V} (h : Reachable hash s) (i : Int) :
    (0 ≤ i ∧ i.toNat < s.bucket_directory.length →
      ∃ (b : Nat) (bk : Bucket K V),
        s.bucket_directory[i.toNat]? = some (some b) ∧
        s.pool[b]? = some bk ∧ GetLocalDepth s i = DepthResult.ok bk.localDepth) ∧
    (¬(0 ≤ i ∧ i.toNat < s.bucket_directory.length) →
      GetLocalDepth s i = DepthResult.undefined) := by
  obtain ⟨hlen, hsome, hvalid, hdepth, hres, hcount⟩ := Inv_reachable hash h
  constructor
  · intro hin
    rcases hslot : s.bucket_directory[i.toNat]? with _ | mb
    · exact absurd hin.2 (Nat.not_lt.2 (List.getElem?_eq_none_iff.1 hslot))
    · rcases mb with _ | b
      · have hcontra := hsome none (List.getElem?_mem hslot)
        cases hcontra
      · have hb : b ∈ refs s := (mem_refs_iff s b).2 ⟨_, hslot⟩
        rcases hpool : s.pool[b]? with _ | bk
        · exact absurd (hvalid b hb)
            (Nat.not_lt.2 (List.getElem?_eq_none_iff.1 hpool))
        · refine ⟨b, bk, rfl, hpool, ?_⟩
          rw [GetLocalDepth, if_pos hin]
          simp only [hslot, hpool]
  · intro hout
    rw [GetLocalDepth, if_neg hout]

/-- C5 witness: on the reachable `demoState`, index 0 is in range and yields
the slot's bucket's depth, while index 7 is out of range and is undefined
behaviour (no error value). -/
theorem getLocalDepth_spec_witness :
    (∃ (b : Nat) (bk : Bucket Nat Nat),
        demoState.bucket_directory[(0 : Int).toNat]? = some (some b) ∧
        demoState.pool[b]? = some bk ∧
        GetLocalDepth demoState 0 = DepthResult.ok bk.localDepth) ∧
    GetLocalDepth demoState 7 = DepthResult.undefined :=
  ⟨(getLocalDepth_spec (fun n => n) reachable_demoState 0).1 (by decide),
   (getLocalDepth_spec (fun n => n) reachable_demoState 7).2 (by decide)⟩

end ExtendibleHash
